import Mathlib

/-!
# Verification of the `markov` chain library

Shallow embedding of `src/chain.go` (package `markov`): a Markov chain
stored as two Go maps, `transitions : map[string]map[string]int64` and
`totals : map[string]int64`, together with the public operations
`CreateNew`, `AddState`, `RemoveState`, `AddTransition`,
`UpdateTransition`, `RemoveTransition`, `HasState`, `HasTransition`,
`GetTransitionWeight(s)`, `GetTransitionProbability(ies)`, `Transit`,
`ToJSON` and `FromJSON`.

Modelling choices:
* A Go map is modelled as an association list `List (String × α)` whose
  key set is duplicate-free (Go maps cannot hold a key twice); lookups,
  point updates and deletions mirror the map primitives.  Content
  ("order-independent") equality of two maps is lookup extensionality.
* `int64` weights are modelled as `Int` (no claim under scrutiny depends
  on 64-bit wrap-around).
* `float64` arithmetic in the probability queries is modelled by exact
  rational arithmetic (`ℚ`).  Go's float division by zero (Inf/NaN) has
  no rational counterpart; what the embedding preserves faithfully is
  *which* calls return an error and which return a value.
* Each Go method that can fail returns `Chain × Option Err`: the chain
  after the call (the receiver is mutated in place in Go) plus the
  returned error.  Every `return err` in the Go source happens before
  any write, which the embedding mirrors branch by branch.
* `math/rand` draws in `Transit` are an explicit parameter `r : String → ℚ`
  giving the value drawn at each loop iteration (keyed by the candidate
  state, which is faithful because map keys are distinct).
* JSON texts are modelled by a `Json` value tree (null / number /
  string / object); `encoding/json`'s rendering of such a tree to bytes
  and its tokenizer are injective and are not re-modelled.
  `json.Unmarshal` into `chainExport` is modelled field by field:
  unknown object fields are ignored, missing fields leave the zero
  value (empty map), `null` decodes to the zero value, and any shape
  mismatch is an error.
-/

namespace Markov

/-- Error kinds of the library (the Go code returns `fmt.Errorf` values;
these constructors mirror its distinct error sites). -/
inductive Err where
  | stateExists (s : String)
  | stateNotFound (s : String)
  | transExists (f t : String)
  | transNotFound (f t : String)
  | nonPositiveWeight
  deriving DecidableEq, Repr

/-! ## Go map primitives on association lists -/

/-- `m[k]` read, `ok` part: the value at key `k`, if present. -/
def find? (k : String) : List (String × α) → Option α
  | [] => none
  | p :: rest => if p.1 = k then some p.2 else find? k rest

/-- `_, ok := m[k]` membership test. -/
def containsKey (k : String) (l : List (String × α)) : Bool :=
  (find? k l).isSome

/-- `m[k] = v` write: replace the binding of `k`, or append it. -/
def setKey (k : String) (v : α) : List (String × α) → List (String × α)
  | [] => [(k, v)]
  | p :: rest => if p.1 = k then (k, v) :: rest else p :: setKey k v rest

/-- `delete(m, k)`. -/
def eraseKey (k : String) : List (String × α) → List (String × α)
  | [] => []
  | p :: rest => if p.1 = k then rest else p :: eraseKey k rest

/-- `m[k]` read of an `int64`-valued map: a missing key reads as the zero
value, exactly as in Go. -/
def getZ (k : String) (l : List (String × Int)) : Int :=
  (find? k l).getD 0

/-! ## The chain -/

/-- The inner map of one state: successor state → weight. -/
abbrev WeightMap := List (String × Int)

/-- `Chain` from `chain.go`: `transitions` and `totals`. -/
structure Chain where
  transitions : List (String × WeightMap)
  totals : List (String × Int)
  deriving DecidableEq, Repr

/-- `CreateNew`: the empty chain. -/
def createNew : Chain := ⟨[], []⟩

/-- `AddState`. -/
def addState (c : Chain) (s : String) : Chain × Option Err :=
  if containsKey s c.transitions then (c, some (.stateExists s))
  else ({ transitions := setKey s [] c.transitions,
          totals := setKey s 0 c.totals }, none)

/-- `HasState`. -/
def hasState (c : Chain) (s : String) : Bool :=
  containsKey s c.transitions

/-- `HasTransition`. -/
def hasTransition (c : Chain) (f t : String) : Bool :=
  match find? f c.transitions with
  | none => false
  | some mf => containsKey t c.transitions && containsKey t mf

/-- `GetAllStates` (iterates over `totals`; order is map order). -/
def getAllStates (c : Chain) : List String :=
  c.totals.map Prod.fst

/-- `GetTransitionWeights`: a defensive copy of `transitions[state]`. -/
def getTransitionWeights (c : Chain) (s : String) : Except Err WeightMap :=
  match find? s c.transitions with
  | none => .error (.stateNotFound s)
  | some m => .ok m

/-- `GetTransitionWeight`. -/
def getTransitionWeight (c : Chain) (f t : String) : Except Err Int :=
  match find? f c.transitions with
  | none => .error (.stateNotFound f)
  | some mf =>
    if containsKey t c.transitions = false then .error (.stateNotFound t)
    else
      match find? t mf with
      | none => .error (.transNotFound f t)
      | some w => .ok w

/-- `GetTransitionProbability`: `float64(w) / float64(totals[f])`,
modelled as exact rational division (division by zero is the one spot
where ℚ and `float64` part ways; see the file header). -/
def getTransitionProbability (c : Chain) (f t : String) : Except Err ℚ :=
  match find? f c.transitions with
  | none => .error (.stateNotFound f)
  | some mf =>
    if containsKey t c.transitions = false then .error (.stateNotFound t)
    else
      match find? t mf with
      | none => .error (.transNotFound f t)
      | some w => .ok ((w : ℚ) / (getZ f c.totals : ℚ))

/-- `GetTransitionProbabilities`: one probability per outgoing edge. -/
def getTransitionProbabilities (c : Chain) (s : String) :
    Except Err (List (String × ℚ)) :=
  match find? s c.transitions with
  | none => .error (.stateNotFound s)
  | some m => .ok (m.map fun p => (p.1, (p.2 : ℚ) / (getZ s c.totals : ℚ)))

/-- The loop of `Transit`: multiply each probability by its random draw
and keep the key of the strictly largest score; `max` starts at `0` and
`next` at `""`. -/
def transitFold (probs : List (String × ℚ)) (r : String → ℚ) : ℚ × String :=
  probs.foldl (fun acc p =>
    if acc.1 < p.2 * r p.1 then (p.2 * r p.1, p.1) else acc) (0, "")

/-- `Transit`. -/
def transit (c : Chain) (s : String) (r : String → ℚ) : String × Option Err :=
  if containsKey s c.transitions = false then ("", some (.stateNotFound s))
  else
    match getTransitionProbabilities c s with
    | .error e => ("", some e)
    | .ok probs => ((transitFold probs r).2, none)

/-- `AddTransition`. -/
def addTransition (c : Chain) (f t : String) (w : Int) : Chain × Option Err :=
  match find? f c.transitions with
  | none => (c, some (.stateNotFound f))
  | some mf =>
    if containsKey t c.transitions = false then (c, some (.stateNotFound t))
    else if containsKey t mf then (c, some (.transExists f t))
    else if w ≤ 0 then (c, some .nonPositiveWeight)
    else ({ transitions := setKey f (setKey t w mf) c.transitions,
            totals := setKey f (getZ f c.totals + w) c.totals }, none)

/-- `UpdateTransition`: `totals[f] -= old; transitions[f][t] = w; totals[f] += w`. -/
def updateTransition (c : Chain) (f t : String) (w : Int) : Chain × Option Err :=
  match find? f c.transitions with
  | none => (c, some (.stateNotFound f))
  | some mf =>
    if containsKey t c.transitions = false then (c, some (.stateNotFound t))
    else
      match find? t mf with
      | none => (c, some (.transNotFound f t))
      | some oldW =>
        ({ transitions := setKey f (setKey t w mf) c.transitions,
           totals := setKey f (getZ f c.totals - oldW + w) c.totals }, none)

/-- `RemoveTransition`: `totals[f] -= transitions[f][t]; delete(transitions[f], t)`. -/
def removeTransition (c : Chain) (f t : String) : Chain × Option Err :=
  match find? f c.transitions with
  | none => (c, some (.stateNotFound f))
  | some mf =>
    if containsKey t c.transitions = false then (c, some (.stateNotFound t))
    else
      match find? t mf with
      | none => (c, some (.transNotFound f t))
      | some w =>
        ({ transitions := setKey f (eraseKey t mf) c.transitions,
           totals := setKey f (getZ f c.totals - w) c.totals }, none)

/-- `RemoveState`: for every key of `transitions` call
`RemoveTransition(key, state)` (errors ignored; the loop only mutates
inner maps and `totals`, so iterating the key list at loop entry is
faithful to Go's `for key := range`), then delete `state` from both maps. -/
def removeLoop (c : Chain) (s : String) : Chain :=
  (c.transitions.map Prod.fst).foldl (fun a k => (removeTransition a k s).1) c

def removeState (c : Chain) (s : String) : Chain × Option Err :=
  if containsKey s c.transitions = false then (c, some (.stateNotFound s))
  else
    ({ transitions := eraseKey s (removeLoop c s).transitions,
       totals := eraseKey s (removeLoop c s).totals }, none)

/-! ## Serialization (`ToJSON` / `FromJSON`) -/

/-- The fragment of JSON value trees that `chainExport` payloads live in. -/
inductive Json where
  | null
  | num (n : Int)
  | str (s : String)
  | obj (fields : List (String × Json))

/-- Render one inner weight map as a JSON object. -/
def encodeWeights (m : WeightMap) : Json :=
  .obj (m.map fun p => (p.1, .num p.2))

/-- Render the outer transitions map as a JSON object. -/
def encodeTrans (t : List (String × WeightMap)) : Json :=
  .obj (t.map fun p => (p.1, encodeWeights p.2))

/-- `ToJSON`: `json.MarshalIndent` of `chainExport\x7bTransitions, Totals\x7d`.
(The marshaller renders map keys in sorted order; key order inside a JSON
object carries no content, so the embedding keeps storage order.) -/
def toJson (c : Chain) : Json :=
  .obj [("Transitions", encodeTrans c.transitions),
        ("Totals", encodeWeights c.totals)]

/-- Decode the fields of an `int64`-valued JSON object, last binding of a
repeated key winning, as `json.Unmarshal` does for maps. -/
def decodeWeightFields : List (String × Json) → WeightMap →
    Except String WeightMap
  | [], acc => .ok acc
  | (k, .num n) :: rest, acc => decodeWeightFields rest (setKey k n acc)
  | (_, _) :: _, _ => .error "json: cannot unmarshal value into Go value of type int64"

/-- Decode a `map[string]int64`: an object, or `null` for the nil map. -/
def decodeWeights : Json → Except String WeightMap
  | .null => .ok []
  | .obj fs => decodeWeightFields fs []
  | _ => .error "json: cannot unmarshal value into Go value of type map[string]int64"

/-- Decode the fields of the outer `map[string]map[string]int64` object. -/
def decodeTransFields : List (String × Json) → List (String × WeightMap) →
    Except String (List (String × WeightMap))
  | [], acc => .ok acc
  | (k, jv) :: rest, acc =>
    match decodeWeights jv with
    | .error e => .error e
    | .ok m => decodeTransFields rest (setKey k m acc)

/-- Decode a `map[string]map[string]int64`. -/
def decodeTrans : Json → Except String (List (String × WeightMap))
  | .null => .ok []
  | .obj fs => decodeTransFields fs []
  | _ => .error "json: cannot unmarshal value into Go value of type map[string]map[string]int64"

/-- Walk the top-level object's fields into a `chainExport`: the two known
fields decode into their slots (a later duplicate overwrites), unknown
fields are ignored. -/
def decodeTopFields : List (String × Json) → Chain → Except String Chain
  | [], acc => .ok acc
  | (k, jv) :: rest, acc =>
    if k = "Transitions" then
      match decodeTrans jv with
      | .error e => .error e
      | .ok m => decodeTopFields rest { acc with transitions := m }
    else if k = "Totals" then
      match decodeWeights jv with
      | .error e => .error e
      | .ok m => decodeTopFields rest { acc with totals := m }
    else decodeTopFields rest acc

/-- `FromJSON`: `json.Unmarshal` into `chainExport`, then wrap the two
parsed maps in a `Chain` verbatim — no validation beyond shape. -/
def fromJson : Json → Except String Chain
  | .null => .ok ⟨[], []⟩
  | .obj fs => decodeTopFields fs ⟨[], []⟩
  | _ => .error "json: cannot unmarshal value into Go value of type markov.chainExport"

/-! ## Reachability and the chain invariant -/

/-- Chains reachable from `CreateNew` by the public mutating operations
(`.1` is the chain after the call, which on failure is the old chain,
exactly as in Go where every error return precedes every write). -/
inductive Reachable : Chain → Prop where
  | empty : Reachable createNew
  | addState {c} (s : String) : Reachable c → Reachable (addState c s).1
  | removeState {c} (s : String) : Reachable c → Reachable (removeState c s).1
  | addTransition {c} (f t : String) (w : Int) : Reachable c →
      Reachable (addTransition c f t w).1
  | updateTransition {c} (f t : String) (w : Int) : Reachable c →
      Reachable (updateTransition c f t w).1
  | removeTransition {c} (f t : String) : Reachable c →
      Reachable (removeTransition c f t).1

/-- Reachable chains built without `UpdateTransition` (the one mutator
that skips the positivity check). -/
inductive ReachableNoUpd : Chain → Prop where
  | empty : ReachableNoUpd createNew
  | addState {c} (s : String) : ReachableNoUpd c → ReachableNoUpd (addState c s).1
  | removeState {c} (s : String) : ReachableNoUpd c → ReachableNoUpd (removeState c s).1
  | addTransition {c} (f t : String) (w : Int) : ReachableNoUpd c →
      ReachableNoUpd (addTransition c f t w).1
  | removeTransition {c} (f t : String) : ReachableNoUpd c →
      ReachableNoUpd (removeTransition c f t).1

/-- Sum of all weights of one inner map. -/
def sumWeights (m : WeightMap) : Int :=
  (m.map Prod.snd).sum

/-- Structural well-formedness plus the totals invariant, phrased over
list members so that it is decidable on concrete chains: duplicate-free
key sets (Go maps), `totals` agreeing with the weight sums, and the two
key sets equal. -/
def ChainWF (c : Chain) : Prop :=
  (c.transitions.map Prod.fst).Nodup ∧
  (c.totals.map Prod.fst).Nodup ∧
  (∀ p ∈ c.transitions, (p.2.map Prod.fst).Nodup) ∧
  (∀ p ∈ c.transitions, find? p.1 c.totals = some (sumWeights p.2)) ∧
  (∀ q ∈ c.totals, containsKey q.1 c.transitions = true)

instance (c : Chain) : Decidable (ChainWF c) := by
  unfold ChainWF; infer_instance

/-- Every transition weight stored in the chain is strictly positive. -/
def AllWeightsPos (c : Chain) : Prop :=
  ∀ p ∈ c.transitions, ∀ q ∈ p.2, 0 < q.2

instance (c : Chain) : Decidable (AllWeightsPos c) := by
  unfold AllWeightsPos; infer_instance

/-! ## Lemmas about the map primitives -/

theorem find?_setKey_self (k : String) (v : α) (l : List (String × α)) :
    find? k (setKey k v l) = some v := by
  induction l with
  | nil => simp [find?, setKey]
  | cons p rest ih =>
    by_cases h : p.1 = k
    · simp [setKey, h, find?]
    · simp [setKey, h, find?, ih]
theorem find?_setKey_ne (h : j ≠ k) (v : α) (l : List (String × α)) :
    find? j (setKey k v l) = find? j l := by
  induction l with
  | nil => simp [find?, setKey, Ne.symm h]
  | cons p rest ih =>
    obtain ⟨a, b⟩ := p
    by_cases hp : a = k
    · subst hp
      simp [setKey, find?, Ne.symm h]
    · by_cases hj : a = j <;> simp [setKey, find?, hp, hj, h, ih]

theorem find?_eq_none_iff (k : String) (l : List (String × α)) :
    find? k l = none ↔ k ∉ l.map Prod.fst := by
  induction l with
  | nil => simp [find?]
  | cons p rest ih =>
    obtain ⟨a, b⟩ := p
    by_cases h : a = k
    · subst h; simp [find?]
    · simp [find?, h, ih, Ne.symm h]

theorem mem_of_find?_eq_some {l : List (String × α)} (h : find? k l = some v) :
    (k, v) ∈ l := by
  induction l with
  | nil => simp [find?] at h
  | cons p rest ih =>
    obtain ⟨a, b⟩ := p
    by_cases hp : a = k
    · subst hp
      have hv : b = v := by simpa [find?] using h
      subst hv
      exact List.mem_cons_self _ _
    · have h2 : find? k rest = some v := by simpa [find?, hp] using h
      exact List.mem_cons_of_mem _ (ih h2)

theorem containsKey_eq_false_iff (k : String) (l : List (String × α)) :
    containsKey k l = false ↔ find? k l = none := by
  rw [containsKey]
  cases find? k l <;> simp

theorem containsKey_iff_mem (k : String) (l : List (String × α)) :
    containsKey k l = true ↔ k ∈ l.map Prod.fst := by
  cases hf : find? k l with
  | none =>
    rw [containsKey, hf]
    simpa using (find?_eq_none_iff k l).mp hf
  | some v =>
    rw [containsKey, hf]
    simpa using List.mem_map_of_mem Prod.fst (mem_of_find?_eq_some hf)

theorem setKey_of_not_contains {l : List (String × α)}
    (h : containsKey k l = false) (v : α) :
    setKey k v l = l ++ [(k, v)] := by
  induction l with
  | nil => simp [setKey]
  | cons p rest ih =>
    obtain ⟨a, b⟩ := p
    rw [containsKey_eq_false_iff] at h
    by_cases hp : a = k
    · subst hp; simp [find?] at h
    · have h2 : find? k rest = none := by simpa [find?, hp] using h
      have := ih ((containsKey_eq_false_iff k rest).mpr h2)
      simp [setKey, hp, this]

theorem keys_setKey_of_contains {l : List (String × α)}
    (h : containsKey k l = true) (v : α) :
    (setKey k v l).map Prod.fst = l.map Prod.fst := by
  induction l with
  | nil => simp [containsKey, find?] at h
  | cons p rest ih =>
    obtain ⟨a, b⟩ := p
    by_cases hp : a = k
    · subst hp; simp [setKey]
    · have h2 : containsKey k rest = true := by
        rw [containsKey] at h ⊢
        simpa [find?, hp] using h
      simp [setKey, hp, ih h2]

theorem keys_setKey_nodup {l : List (String × α)}
    (h : (l.map Prod.fst).Nodup) (k : String) (v : α) :
    ((setKey k v l).map Prod.fst).Nodup := by
  cases hc : containsKey k l with
  | true => rwa [keys_setKey_of_contains hc]
  | false =>
    rw [setKey_of_not_contains hc, List.map_append, List.nodup_append]
    refine ⟨h, by simp, ?_⟩
    intro a ha hb
    simp only [List.map_cons, List.map_nil, List.mem_singleton] at hb
    subst hb
    exact absurd ((containsKey_iff_mem a l).mpr ha) (by simp [hc])

theorem eraseKey_sublist (k : String) (l : List (String × α)) :
    (eraseKey k l).Sublist l := by
  induction l with
  | nil => simp [eraseKey]
  | cons p rest ih =>
    by_cases hp : p.1 = k
    · rw [eraseKey, if_pos hp]
      exact List.sublist_cons_self p rest
    · rw [eraseKey, if_neg hp]
      exact ih.cons₂ p

theorem keys_eraseKey_nodup (h : (l.map Prod.fst).Nodup) (k : String) :
    ((eraseKey k l).map Prod.fst).Nodup :=
  ((eraseKey_sublist k l).map Prod.fst).nodup h

theorem find?_eraseKey_ne (h : j ≠ k) (l : List (String × α)) :
    find? j (eraseKey k l) = find? j l := by
  induction l with
  | nil => simp [eraseKey]
  | cons p rest ih =>
    obtain ⟨a, b⟩ := p
    by_cases hp : a = k
    · subst hp
      simp [eraseKey, find?, Ne.symm h]
    · by_cases hj : a = j <;> simp [eraseKey, find?, hp, hj, h, ih]

theorem find?_eraseKey_self (h : (l.map Prod.fst).Nodup) (k : String) :
    find? k (eraseKey k l) = none := by
  induction l with
  | nil => simp [eraseKey, find?]
  | cons p rest ih =>
    obtain ⟨a, b⟩ := p
    rw [List.map_cons, List.nodup_cons] at h
    by_cases hp : a = k
    · subst hp
      rw [eraseKey, if_pos rfl, find?_eq_none_iff]
      exact h.1
    · have := ih h.2
      simp [eraseKey, find?, hp, this]

theorem mem_setKey_of_nodup (h : (l.map Prod.fst).Nodup)
    (hm : p ∈ setKey k v l) : p = (k, v) ∨ (p ∈ l ∧ p.1 ≠ k) := by
  induction l with
  | nil =>
    simp [setKey] at hm
    exact Or.inl hm
  | cons q rest ih =>
    obtain ⟨a, b⟩ := q
    rw [List.map_cons, List.nodup_cons] at h
    by_cases hq : a = k
    · rw [setKey, if_pos hq] at hm
      rcases List.mem_cons.mp hm with h1 | h1
      · exact Or.inl h1
      · refine Or.inr ⟨List.mem_cons_of_mem _ h1, fun hpk => ?_⟩
        apply h.1
        rw [hq, ← hpk]
        exact List.mem_map.mpr ⟨p, h1, rfl⟩
    · rw [setKey, if_neg hq] at hm
      rcases List.mem_cons.mp hm with h1 | h1
      · subst h1
        exact Or.inr ⟨List.mem_cons_self _ _, hq⟩
      · rcases ih h.2 h1 with h2 | h2
        · exact Or.inl h2
        · exact Or.inr ⟨List.mem_cons_of_mem _ h2.1, h2.2⟩

theorem mem_setKey_sub (hm : p ∈ setKey k v l) : p = (k, v) ∨ p ∈ l := by
  induction l with
  | nil =>
    simp [setKey] at hm
    exact Or.inl hm
  | cons q rest ih =>
    by_cases hq : q.1 = k
    · rw [setKey, if_pos hq] at hm
      rcases List.mem_cons.mp hm with h1 | h1
      · exact Or.inl h1
      · exact Or.inr (List.mem_cons_of_mem _ h1)
    · rw [setKey, if_neg hq] at hm
      rcases List.mem_cons.mp hm with h1 | h1
      · subst h1
        exact Or.inr (List.mem_cons_self _ _)
      · rcases ih h1 with h2 | h2
        · exact Or.inl h2
        · exact Or.inr (List.mem_cons_of_mem _ h2)

theorem mem_eraseKey_sub (hm : p ∈ eraseKey k l) : p ∈ l :=
  (eraseKey_sublist k l).mem hm

theorem sumWeights_setKey_append (h : containsKey k m = false) (v : Int) :
    sumWeights (setKey k v m) = sumWeights m + v := by
  rw [setKey_of_not_contains h, sumWeights, sumWeights, List.map_append,
    List.sum_append]
  simp

theorem sumWeights_setKey_replace (h : find? k m = some old) (v : Int) :
    sumWeights (setKey k v m) = sumWeights m - old + v := by
  induction m with
  | nil => simp [find?] at h
  | cons p rest ih =>
    obtain ⟨a, b⟩ := p
    by_cases hp : a = k
    · subst hp
      have hb : b = old := by simpa [find?] using h
      subst hb
      simp [setKey, sumWeights]
      ring
    · have h2 : find? k rest = some old := by simpa [find?, hp] using h
      have := ih h2
      simp only [sumWeights, List.map_cons, List.sum_cons] at this ⊢
      rw [setKey, if_neg hp]
      simp only [List.map_cons, List.sum_cons]
      omega

theorem sumWeights_eraseKey (h : find? k m = some w) :
    sumWeights (eraseKey k m) = sumWeights m - w := by
  induction m with
  | nil => simp [find?] at h
  | cons p rest ih =>
    obtain ⟨a, b⟩ := p
    by_cases hp : a = k
    · subst hp
      have hb : b = w := by simpa [find?] using h
      subst hb
      simp [eraseKey, sumWeights]
    · have h2 : find? k rest = some w := by simpa [find?, hp] using h
      have := ih h2
      simp only [sumWeights, List.map_cons, List.sum_cons] at this ⊢
      rw [eraseKey, if_neg hp]
      simp only [List.map_cons, List.sum_cons]
      omega

theorem containsKey_setKey_self (k : String) (v : α) (l : List (String × α)) :
    containsKey k (setKey k v l) = true := by
  rw [containsKey, find?_setKey_self]
  rfl

theorem containsKey_setKey_ne (h : j ≠ k) (v : α) (l : List (String × α)) :
    containsKey j (setKey k v l) = containsKey j l := by
  rw [containsKey, find?_setKey_ne h, containsKey]

theorem containsKey_eraseKey_ne (h : j ≠ k) (l : List (String × α)) :
    containsKey j (eraseKey k l) = containsKey j l := by
  rw [containsKey, find?_eraseKey_ne h, containsKey]

theorem mem_eraseKey_of_nodup {l : List (String × α)}
    (h : (l.map Prod.fst).Nodup) (hm : p ∈ eraseKey k l) :
    p ∈ l ∧ p.1 ≠ k := by
  induction l with
  | nil => simp [eraseKey] at hm
  | cons q rest ih =>
    obtain ⟨a, b⟩ := q
    rw [List.map_cons, List.nodup_cons] at h
    by_cases hq : a = k
    · rw [eraseKey, if_pos hq] at hm
      refine ⟨List.mem_cons_of_mem _ hm, fun hpk => ?_⟩
      apply h.1
      rw [hq, ← hpk]
      exact List.mem_map.mpr ⟨p, hm, rfl⟩
    · rw [eraseKey, if_neg hq] at hm
      rcases List.mem_cons.mp hm with h1 | h1
      · subst h1
        exact ⟨List.mem_cons_self _ _, hq⟩
      · obtain ⟨h2, h3⟩ := ih h.2 h1
        exact ⟨List.mem_cons_of_mem _ h2, h3⟩

/-! ## Preservation of the chain invariant -/

theorem ChainWF.find?_totals {c : Chain} (h : ChainWF c)
    (hf : find? s c.transitions = some m) :
    find? s c.totals = some (sumWeights m) :=
  h.2.2.2.1 (s, m) (mem_of_find?_eq_some hf)

theorem ChainWF.contains_eq {c : Chain} (h : ChainWF c) (s : String) :
    containsKey s c.transitions = containsKey s c.totals := by
  cases hf : find? s c.transitions with
  | some m =>
    rw [containsKey, hf, containsKey, h.find?_totals hf]
    rfl
  | none =>
    cases hg : find? s c.totals with
    | none =>
      rw [containsKey, hf, containsKey, hg]
      rfl
    | some v =>
      have := h.2.2.2.2 (s, v) (mem_of_find?_eq_some hg)
      rw [containsKey, hf] at this
      simp at this

theorem chainWF_createNew : ChainWF createNew := by
  refine ⟨?_, ?_, ?_, ?_, ?_⟩ <;> simp [createNew]

theorem chainWF_addState (h : ChainWF c) (s : String) :
    ChainWF (addState c s).1 := by
  rw [addState]
  by_cases hc : containsKey s c.transitions
  · simp only [hc, if_true]
    exact h
  · rw [if_neg hc]
    refine ⟨keys_setKey_nodup h.1 s [], keys_setKey_nodup h.2.1 s 0, ?_, ?_, ?_⟩
    · intro p hp
      rcases mem_setKey_sub hp with h1 | h1
      · subst h1; simp
      · exact h.2.2.1 p h1
    · intro p hp
      rcases mem_setKey_of_nodup h.1 hp with h1 | ⟨h1, h2⟩
      · subst h1
        show find? s (setKey s 0 c.totals) = some (sumWeights [])
        rw [find?_setKey_self]
        rfl
      · rw [find?_setKey_ne h2]
        exact h.2.2.2.1 p h1
    · intro q hq
      rcases mem_setKey_of_nodup h.2.1 hq with h1 | ⟨h1, h2⟩
      · subst h1
        exact containsKey_setKey_self s [] c.transitions
      · rw [containsKey_setKey_ne h2]
        exact h.2.2.2.2 q h1

/-- Common shape of the three transition mutators: rewrite the inner map of
an existing state `f` and its total in one step. -/
theorem chainWF_setInner (h : ChainWF c) (hf : find? f c.transitions = some mf)
    (hkeys : (newInner.map Prod.fst).Nodup)
    (hsum : sumWeights newInner = newTotal) :
    ChainWF ⟨setKey f newInner c.transitions, setKey f newTotal c.totals⟩ := by
  have hfT : find? f c.totals = some (sumWeights mf) := h.find?_totals hf
  have hcf : containsKey f c.transitions = true := by rw [containsKey, hf]; rfl
  have hcfT : containsKey f c.totals = true := by rw [containsKey, hfT]; rfl
  refine ⟨?_, ?_, ?_, ?_, ?_⟩
  · rw [show (Chain.mk (setKey f newInner c.transitions) (setKey f newTotal c.totals)).transitions = setKey f newInner c.transitions from rfl,
      keys_setKey_of_contains hcf]
    exact h.1
  · rw [show (Chain.mk (setKey f newInner c.transitions) (setKey f newTotal c.totals)).totals = setKey f newTotal c.totals from rfl,
      keys_setKey_of_contains hcfT]
    exact h.2.1
  · intro p hp
    rcases mem_setKey_sub hp with h1 | h1
    · subst h1; exact hkeys
    · exact h.2.2.1 p h1
  · intro p hp
    rcases mem_setKey_of_nodup h.1 hp with h1 | ⟨h1, h2⟩
    · subst h1
      show find? f (setKey f newTotal c.totals) = some (sumWeights newInner)
      rw [find?_setKey_self, hsum]
    · rw [show (Chain.mk (setKey f newInner c.transitions) (setKey f newTotal c.totals)).totals = setKey f newTotal c.totals from rfl,
        find?_setKey_ne h2]
      exact h.2.2.2.1 p h1
  · intro q hq
    rcases mem_setKey_of_nodup h.2.1 hq with h1 | ⟨h1, h2⟩
    · subst h1
      exact containsKey_setKey_self f newInner c.transitions
    · rw [show (Chain.mk (setKey f newInner c.transitions) (setKey f newTotal c.totals)).transitions = setKey f newInner c.transitions from rfl,
        containsKey_setKey_ne h2]
      exact h.2.2.2.2 q h1

theorem getZ_eq_sumWeights (h : ChainWF c) (hf : find? f c.transitions = some mf) :
    getZ f c.totals = sumWeights mf := by
  rw [getZ, h.find?_totals hf]
  rfl

theorem chainWF_addTransition (h : ChainWF c) (f t : String) (w : Int) :
    ChainWF (addTransition c f t w).1 := by
  cases hf : find? f c.transitions with
  | none =>
    simp only [addTransition, hf]
    exact h
  | some mf =>
    simp only [addTransition, hf]
    cases ht : containsKey t c.transitions with
    | false =>
      simp only [if_pos rfl]
      exact h
    | true =>
      simp only [Bool.true_eq_false, if_neg (Bool.noConfusion : ¬ true = false)]
      cases hedge : containsKey t mf with
      | true =>
        simp only [if_pos rfl]
        exact h
      | false =>
        simp only [Bool.false_eq_true, if_neg (Bool.noConfusion : ¬ false = true)]
        by_cases hw : w ≤ 0
        · simp only [if_pos hw]
          exact h
        · simp only [if_neg hw]
          refine chainWF_setInner h hf ?_ ?_
          · exact keys_setKey_nodup (h.2.2.1 (f, mf) (mem_of_find?_eq_some hf)) t w
          · rw [sumWeights_setKey_append hedge w, getZ_eq_sumWeights h hf]

theorem chainWF_updateTransition (h : ChainWF c) (f t : String) (w : Int) :
    ChainWF (updateTransition c f t w).1 := by
  cases hf : find? f c.transitions with
  | none =>
    simp only [updateTransition, hf]
    exact h
  | some mf =>
    simp only [updateTransition, hf]
    cases ht : containsKey t c.transitions with
    | false =>
      simp only [if_pos rfl]
      exact h
    | true =>
      simp only [Bool.true_eq_false, if_neg (Bool.noConfusion : ¬ true = false)]
      cases hedge : find? t mf with
      | none => exact h
      | some oldW =>
        refine chainWF_setInner h hf ?_ ?_
        · exact keys_setKey_nodup (h.2.2.1 (f, mf) (mem_of_find?_eq_some hf)) t w
        · rw [sumWeights_setKey_replace hedge w, getZ_eq_sumWeights h hf]

theorem chainWF_removeTransition (h : ChainWF c) (f t : String) :
    ChainWF (removeTransition c f t).1 := by
  cases hf : find? f c.transitions with
  | none =>
    simp only [removeTransition, hf]
    exact h
  | some mf =>
    simp only [removeTransition, hf]
    cases ht : containsKey t c.transitions with
    | false =>
      simp only [if_pos rfl]
      exact h
    | true =>
      simp only [Bool.true_eq_false, if_neg (Bool.noConfusion : ¬ true = false)]
      cases hedge : find? t mf with
      | none => exact h
      | some w =>
        refine chainWF_setInner h hf ?_ ?_
        · exact keys_eraseKey_nodup (h.2.2.1 (f, mf) (mem_of_find?_eq_some hf)) t
        · rw [sumWeights_eraseKey hedge, getZ_eq_sumWeights h hf]

theorem removeTransition_keys (h : ChainWF c) (f t : String) :
    (removeTransition c f t).1.transitions.map Prod.fst = c.transitions.map Prod.fst ∧
    (removeTransition c f t).1.totals.map Prod.fst = c.totals.map Prod.fst := by
  cases hf : find? f c.transitions with
  | none =>
    simp only [removeTransition, hf]
    exact ⟨by trivial, by trivial⟩
  | some mf =>
    simp only [removeTransition, hf]
    cases ht : containsKey t c.transitions with
    | false =>
      simp only [if_pos rfl]
      exact ⟨by trivial, by trivial⟩
    | true =>
      simp only [Bool.true_eq_false, if_neg (Bool.noConfusion : ¬ true = false)]
      cases hedge : find? t mf with
      | none => exact ⟨rfl, rfl⟩
      | some w =>
        have hcf : containsKey f c.transitions = true := by rw [containsKey, hf]; rfl
        have hcfT : containsKey f c.totals = true := by
          rw [containsKey, h.find?_totals hf]; rfl
        exact ⟨keys_setKey_of_contains hcf _, keys_setKey_of_contains hcfT _⟩

/-- The `RemoveState` loop preserves well-formedness and both key sets. -/
theorem chainWF_fold_removeTransition (s : String) :
    ∀ (l : List String) (a : Chain), ChainWF a →
      ChainWF (l.foldl (fun x k => (removeTransition x k s).1) a) ∧
      (l.foldl (fun x k => (removeTransition x k s).1) a).transitions.map Prod.fst =
        a.transitions.map Prod.fst ∧
      (l.foldl (fun x k => (removeTransition x k s).1) a).totals.map Prod.fst =
        a.totals.map Prod.fst := by
  intro l
  induction l with
  | nil => exact fun a ha => ⟨ha, rfl, rfl⟩
  | cons k rest ih =>
    intro a ha
    rw [List.foldl_cons]
    obtain ⟨h1, h2, h3⟩ := ih ((removeTransition a k s).1) (chainWF_removeTransition ha k s)
    obtain ⟨h4, h5⟩ := removeTransition_keys ha k s
    exact ⟨h1, h2.trans h4, h3.trans h5⟩

theorem chainWF_removeState (h : ChainWF c) (s : String) :
    ChainWF (removeState c s).1 := by
  cases hc : containsKey s c.transitions with
  | false =>
    simp only [removeState, hc, if_pos rfl]
    exact h
  | true =>
    simp only [removeState, hc, Bool.true_eq_false,
      if_neg (Bool.noConfusion : ¬ true = false)]
    have h1 : ChainWF (removeLoop c s) :=
      (chainWF_fold_removeTransition s (c.transitions.map Prod.fst) c h).1
    refine ⟨keys_eraseKey_nodup h1.1 s, keys_eraseKey_nodup h1.2.1 s, ?_, ?_, ?_⟩
    · intro p hp
      exact h1.2.2.1 p (mem_eraseKey_sub hp)
    · intro p hp
      obtain ⟨hp1, hp2⟩ := mem_eraseKey_of_nodup h1.1 hp
      show find? p.1 (eraseKey s (removeLoop c s).totals) = some (sumWeights p.2)
      rw [find?_eraseKey_ne hp2]
      exact h1.2.2.2.1 p hp1
    · intro q hq
      obtain ⟨hq1, hq2⟩ := mem_eraseKey_of_nodup h1.2.1 hq
      show containsKey q.1 (eraseKey s (removeLoop c s).transitions) = true
      rw [containsKey_eraseKey_ne hq2]
      exact h1.2.2.2.2 q hq1

/-- Every reachable chain is well-formed: the totals invariant and the
key-set equality hold after every public mutating operation. -/
theorem reachable_chainWF (h : Reachable c) : ChainWF c := by
  induction h with
  | empty => exact chainWF_createNew
  | addState s _ ih => exact chainWF_addState ih s
  | removeState s _ ih => exact chainWF_removeState ih s
  | addTransition f t w _ ih => exact chainWF_addTransition ih f t w
  | updateTransition f t w _ ih => exact chainWF_updateTransition ih f t w
  | removeTransition f t _ ih => exact chainWF_removeTransition ih f t

/-! ## Positivity of stored weights -/

theorem allPos_addState (h : AllWeightsPos c) (s : String) :
    AllWeightsPos (addState c s).1 := by
  rw [addState]
  by_cases hc : containsKey s c.transitions
  · rw [if_pos hc]
    exact h
  · rw [if_neg hc]
    intro p hp
    rcases mem_setKey_sub hp with h1 | h1
    · subst h1
      intro q hq
      simp at hq
    · exact h p h1

theorem allPos_addTransition (h : AllWeightsPos c) (f t : String) (w : Int) :
    AllWeightsPos (addTransition c f t w).1 := by
  cases hf : find? f c.transitions with
  | none =>
    simp only [addTransition, hf]
    exact h
  | some mf =>
    simp only [addTransition, hf]
    cases ht : containsKey t c.transitions with
    | false =>
      simp only [if_pos rfl]
      exact h
    | true =>
      simp only [Bool.true_eq_false, if_neg (Bool.noConfusion : ¬ true = false)]
      cases hedge : containsKey t mf with
      | true =>
        simp only [if_pos rfl]
        exact h
      | false =>
        simp only [Bool.false_eq_true, if_neg (Bool.noConfusion : ¬ false = true)]
        by_cases hw : w ≤ 0
        · simp only [if_pos hw]
          exact h
        · simp only [if_neg hw]
          intro p hp
          rcases mem_setKey_sub hp with h1 | h1
          · subst h1
            intro q hq
            rcases mem_setKey_sub hq with h2 | h2
            · subst h2
              show 0 < w
              omega
            · exact h (f, mf) (mem_of_find?_eq_some hf) q h2
          · exact h p h1

theorem allPos_removeTransition (h : AllWeightsPos c) (f t : String) :
    AllWeightsPos (removeTransition c f t).1 := by
  cases hf : find? f c.transitions with
  | none =>
    simp only [removeTransition, hf]
    exact h
  | some mf =>
    simp only [removeTransition, hf]
    cases ht : containsKey t c.transitions with
    | false =>
      simp only [if_pos rfl]
      exact h
    | true =>
      simp only [Bool.true_eq_false, if_neg (Bool.noConfusion : ¬ true = false)]
      cases hedge : find? t mf with
      | none => exact h
      | some w =>
        intro p hp
        rcases mem_setKey_sub hp with h1 | h1
        · subst h1
          intro q hq
          exact h (f, mf) (mem_of_find?_eq_some hf) q (mem_eraseKey_sub hq)
        · exact h p h1

theorem allPos_removeState (h : AllWeightsPos c) (s : String) :
    AllWeightsPos (removeState c s).1 := by
  cases hc : containsKey s c.transitions with
  | false =>
    simp only [removeState, hc, if_pos rfl]
    exact h
  | true =>
    simp only [removeState, hc, Bool.true_eq_false,
      if_neg (Bool.noConfusion : ¬ true = false)]
    have hfold : ∀ (l : List String) (a : Chain), AllWeightsPos a →
        AllWeightsPos (l.foldl (fun x k => (removeTransition x k s).1) a) := by
      intro l
      induction l with
      | nil => exact fun a ha => ha
      | cons k rest ih =>
        intro a ha
        rw [List.foldl_cons]
        exact ih _ (allPos_removeTransition ha k s)
    intro p hp
    exact hfold _ c h p (mem_eraseKey_sub hp)

theorem reachableNoUpd_allPos (h : ReachableNoUpd c) : AllWeightsPos c := by
  induction h with
  | empty =>
    intro p hp
    simp [createNew] at hp
  | addState s _ ih => exact allPos_addState ih s
  | removeState s _ ih => exact allPos_removeState ih s
  | addTransition f t w _ ih => exact allPos_addTransition ih f t w
  | removeTransition f t _ ih => exact allPos_removeTransition ih f t

/-! ## Concrete chains used to instantiate the claim theorems -/

/-- States `a`, `b` and the edge `a → b` of weight 3, built by the public API. -/
def cEx : Chain :=
  (addTransition (addState (addState createNew "a").1 "b").1 "a" "b" 3).1

theorem reachable_cEx : Reachable cEx :=
  Reachable.addTransition "a" "b" 3
    (Reachable.addState "b" (Reachable.addState "a" Reachable.empty))

theorem reachableNoUpd_cEx : ReachableNoUpd cEx :=
  ReachableNoUpd.addTransition "a" "b" 3
    (ReachableNoUpd.addState "b" (ReachableNoUpd.addState "a" ReachableNoUpd.empty))

/-- `cEx` after `UpdateTransition("a", "b", 0)`: the weight 0 is stored and
`totals["a"]` drops to 0. -/
def cBad : Chain := (updateTransition cEx "a" "b" 0).1

theorem reachable_cBad : Reachable cBad :=
  Reachable.updateTransition "a" "b" 0 reachable_cEx

/-- States `a`, `b`, edge `a → b` of weight 2 (used for `RemoveState`). -/
def cEx3 : Chain :=
  (addTransition (addState (addState createNew "a").1 "b").1 "a" "b" 2).1

/-! ## The claims -/

/-- C1: for every chain reachable from the empty chain by any sequence of
public operations and every state `s` in it, `totals[s]` is the sum of the
weights in `transitions[s]`, and the key sets of `transitions` and
`totals` are equal. -/
theorem reachable_totals_invariant (c : Chain) (h : Reachable c) :
    (∀ s m, find? s c.transitions = some m →
      find? s c.totals = some (sumWeights m)) ∧
    (∀ s, containsKey s c.transitions = containsKey s c.totals) := by
  have hw := reachable_chainWF h
  exact ⟨fun s m hm => hw.find?_totals hm, fun s => hw.contains_eq s⟩

theorem reachable_totals_invariant_witness :
    find? "a" cEx.totals = some (sumWeights [("b", (3 : Int))]) ∧
    containsKey "c" cEx.transitions = containsKey "c" cEx.totals :=
  ⟨(reachable_totals_invariant cEx reachable_cEx).1 "a" [("b", 3)] (by decide),
   (reachable_totals_invariant cEx reachable_cEx).2 "c"⟩

/-- C2 counterexample: `cBad` is reachable (via `UpdateTransition` with
weight 0) yet stores the non-positive weight 0, so it is false that every
reachable chain holds only strictly positive weights. -/
theorem updateTransition_stores_nonpositive :
    Reachable cBad ∧ ¬ AllWeightsPos cBad ∧
    find? "a" cBad.transitions = some [("b", 0)] :=
  ⟨reachable_cBad, by decide, by decide⟩

/-- C2 amended: `AddTransition` rejects any weight `≤ 0` before mutating
(so such a weight is never stored by it), and every chain reachable
without `UpdateTransition` holds only strictly positive weights;
`UpdateTransition` itself performs no positivity check, so it can store
non-positive weights (see the counterexample). -/
theorem weight_positivity_amended :
    (∀ (c : Chain) (f t : String) (w : Int), w ≤ 0 →
      (addTransition c f t w).1 = c ∧ (addTransition c f t w).2.isSome = true) ∧
    (∀ c, ReachableNoUpd c → AllWeightsPos c) := by
  constructor
  · intro c f t w hw
    cases hf : find? f c.transitions with
    | none =>
      simp only [addTransition, hf]
      exact ⟨by trivial, by trivial⟩
    | some mf =>
      simp only [addTransition, hf]
      cases ht : containsKey t c.transitions with
      | false =>
        simp only [if_pos rfl]
        exact ⟨by trivial, by trivial⟩
      | true =>
        simp only [Bool.true_eq_false, if_neg (Bool.noConfusion : ¬ true = false)]
        cases hedge : containsKey t mf with
        | true =>
          simp only [if_pos rfl]
          exact ⟨by trivial, by trivial⟩
        | false =>
          simp only [Bool.false_eq_true, if_neg (Bool.noConfusion : ¬ false = true),
            if_pos hw]
          exact ⟨by trivial, by trivial⟩
  · exact fun c h => reachableNoUpd_allPos h

theorem weight_positivity_amended_witness :
    ((addTransition cEx "b" "a" (-1)).1 = cEx ∧
      (addTransition cEx "b" "a" (-1)).2.isSome = true) ∧
    AllWeightsPos cEx :=
  ⟨weight_positivity_amended.1 cEx "b" "a" (-1) (by decide),
   weight_positivity_amended.2 cEx reachableNoUpd_cEx⟩

/-- C4: `AddTransition` fails with the state-not-found error if either
endpoint is missing, with the transition-exists error if the edge is
already present, with the weight error if `w ≤ 0` (checks in this order,
as in the source), and in every failure case returns the chain
unchanged; on success it returns no error, stores the edge `f → t` with
weight `w`, adds exactly `w` to `totals[f]`, and modifies nothing else. -/
theorem addTransition_spec (c : Chain) (f t : String) (w : Int) :
    (find? f c.transitions = none →
      addTransition c f t w = (c, some (Err.stateNotFound f))) ∧
    (∀ mf, find? f c.transitions = some mf →
      containsKey t c.transitions = false →
      addTransition c f t w = (c, some (Err.stateNotFound t))) ∧
    (∀ mf, find? f c.transitions = some mf →
      containsKey t c.transitions = true → containsKey t mf = true →
      addTransition c f t w = (c, some (Err.transExists f t))) ∧
    (∀ mf, find? f c.transitions = some mf →
      containsKey t c.transitions = true → containsKey t mf = false → w ≤ 0 →
      addTransition c f t w = (c, some Err.nonPositiveWeight)) ∧
    (∀ mf, find? f c.transitions = some mf →
      containsKey t c.transitions = true → containsKey t mf = false → 0 < w →
      (addTransition c f t w).2 = none ∧
      find? f (addTransition c f t w).1.transitions = some (setKey t w mf) ∧
      find? t (setKey t w mf) = some w ∧
      (∀ u, u ≠ t → find? u (setKey t w mf) = find? u mf) ∧
      find? f (addTransition c f t w).1.totals = some (getZ f c.totals + w) ∧
      (∀ k, k ≠ f →
        find? k (addTransition c f t w).1.transitions = find? k c.transitions) ∧
      (∀ k, k ≠ f →
        find? k (addTransition c f t w).1.totals = find? k c.totals)) := by
  refine ⟨?_, ?_, ?_, ?_, ?_⟩
  · intro hf
    simp only [addTransition, hf]
  · intro mf hf ht
    simp only [addTransition, hf, ht, if_true, if_false, eq_self_iff_true]
  · intro mf hf ht hedge
    simp only [addTransition, hf, ht, hedge, Bool.true_eq_false, if_true,
      if_false, eq_self_iff_true]
  · intro mf hf ht hedge hw
    simp only [addTransition, hf, ht, hedge, Bool.true_eq_false,
      Bool.false_eq_true, if_true, if_false, eq_self_iff_true, if_pos hw]
  · intro mf hf ht hedge hw
    have hw2 : ¬ w ≤ 0 := by omega
    simp only [addTransition, hf, ht, hedge, Bool.true_eq_false,
      Bool.false_eq_true, if_true, if_false, eq_self_iff_true, if_neg hw2]
    refine ⟨by trivial, ?_, find?_setKey_self t w mf, ?_, ?_, ?_, ?_⟩
    · exact find?_setKey_self f (setKey t w mf) c.transitions
    · intro u hu
      exact find?_setKey_ne hu w mf
    · exact find?_setKey_self f (getZ f c.totals + w) c.totals
    · intro k hk
      exact find?_setKey_ne hk (setKey t w mf) c.transitions
    · intro k hk
      exact find?_setKey_ne hk (getZ f c.totals + w) c.totals

theorem addTransition_spec_witness :
    addTransition cEx "b" "a" 0 = (cEx, some Err.nonPositiveWeight) ∧
    (addTransition cEx "b" "a" 4).2 = none :=
  ⟨(addTransition_spec cEx "b" "a" 0).2.2.2.1 [] (by decide) (by decide)
      (by decide) (by decide),
   ((addTransition_spec cEx "b" "a" 4).2.2.2.2 [] (by decide) (by decide)
      (by decide) (by decide)).1⟩

/-- C5: `UpdateTransition` fails with the not-found errors (chain
unchanged) when an endpoint or the edge is missing; on success — for any
new weight `w`, with no positivity check — it stores `w` on the edge and
changes `totals[f]` by exactly `w - oldW`, touching nothing else. -/
theorem updateTransition_spec (c : Chain) (f t : String) (w : Int) :
    (find? f c.transitions = none →
      updateTransition c f t w = (c, some (Err.stateNotFound f))) ∧
    (∀ mf, find? f c.transitions = some mf →
      containsKey t c.transitions = false →
      updateTransition c f t w = (c, some (Err.stateNotFound t))) ∧
    (∀ mf, find? f c.transitions = some mf →
      containsKey t c.transitions = true → find? t mf = none →
      updateTransition c f t w = (c, some (Err.transNotFound f t))) ∧
    (∀ mf oldW, find? f c.transitions = some mf →
      containsKey t c.transitions = true → find? t mf = some oldW →
      (updateTransition c f t w).2 = none ∧
      find? f (updateTransition c f t w).1.transitions = some (setKey t w mf) ∧
      find? t (setKey t w mf) = some w ∧
      (∀ u, u ≠ t → find? u (setKey t w mf) = find? u mf) ∧
      find? f (updateTransition c f t w).1.totals =
        some (getZ f c.totals + (w - oldW)) ∧
      (∀ k, k ≠ f →
        find? k (updateTransition c f t w).1.transitions = find? k c.transitions) ∧
      (∀ k, k ≠ f →
        find? k (updateTransition c f t w).1.totals = find? k c.totals)) := by
  refine ⟨?_, ?_, ?_, ?_⟩
  · intro hf
    simp only [updateTransition, hf]
  · intro mf hf ht
    simp only [updateTransition, hf, ht, if_true, if_false, eq_self_iff_true]
  · intro mf hf ht hedge
    simp only [updateTransition, hf, ht, hedge, Bool.true_eq_false, if_true,
      if_false, eq_self_iff_true]
  · intro mf oldW hf ht hedge
    simp only [updateTransition, hf, ht, hedge, Bool.true_eq_false, if_true,
      if_false, eq_self_iff_true]
    refine ⟨by trivial, ?_, find?_setKey_self t w mf, ?_, ?_, ?_, ?_⟩
    · exact find?_setKey_self f (setKey t w mf) c.transitions
    · intro u hu
      exact find?_setKey_ne hu w mf
    · rw [find?_setKey_self f (getZ f c.totals - oldW + w) c.totals]
      congr 1
      ring
    · intro k hk
      exact find?_setKey_ne hk (setKey t w mf) c.transitions
    · intro k hk
      exact find?_setKey_ne hk (getZ f c.totals - oldW + w) c.totals

theorem updateTransition_spec_witness :
    (updateTransition cEx "a" "b" (-2)).2 = none ∧
    find? "a" (updateTransition cEx "a" "b" (-2)).1.totals =
      some (getZ "a" cEx.totals + (-2 - 3)) :=
  ⟨((updateTransition_spec cEx "a" "b" (-2)).2.2.2 [("b", 3)] 3 (by decide)
      (by decide) (by decide)).1,
   ((updateTransition_spec cEx "a" "b" (-2)).2.2.2 [("b", 3)] 3 (by decide)
      (by decide) (by decide)).2.2.2.2.1⟩

/-- C7: `Transit` fails (with the state-not-found error) exactly when the
queried state does not exist, and for an existing terminal state (empty
outgoing map) it returns the empty string and no error, whatever the
random draws are. -/
theorem transit_spec (c : Chain) (s : String) (r : String → ℚ) :
    (containsKey s c.transitions = false →
      transit c s r = ("", some (Err.stateNotFound s))) ∧
    (containsKey s c.transitions = true → (transit c s r).2 = none) ∧
    (find? s c.transitions = some [] → transit c s r = ("", none)) := by
  refine ⟨?_, ?_, ?_⟩
  · intro h
    simp only [transit, h, if_true, eq_self_iff_true]
  · intro h
    cases hf : find? s c.transitions with
    | none =>
      rw [containsKey, hf] at h
      simp at h
    | some m =>
      simp only [transit, h, getTransitionProbabilities, hf, Bool.true_eq_false,
        if_true, if_false, eq_self_iff_true]
  · intro hf
    have h : containsKey s c.transitions = true := by
      rw [containsKey, hf]
      rfl
    simp only [transit, h, getTransitionProbabilities, hf, Bool.true_eq_false,
      if_true, if_false, eq_self_iff_true, List.map_nil]
    rfl

theorem transit_spec_witness :
    transit cEx "c" (fun _ => 1 / 2) = ("", some (Err.stateNotFound "c")) ∧
    transit cEx "b" (fun _ => 1 / 2) = ("", none) :=
  ⟨(transit_spec cEx "c" (fun _ => 1 / 2)).1 (by decide),
   (transit_spec cEx "b" (fun _ => 1 / 2)).2.2 (by decide)⟩

/-- C10: `Transit` on the existing non-terminal state `a` of `cEx` (one
outgoing edge of weight 3) returns the empty result with no error when
every random draw is 0, because each score `probability * draw` is 0 and
fails the strict comparison against the initial maximum 0 — so an empty
result does not imply the queried state is terminal. -/
theorem transit_zero_draws_empty :
    hasState cEx "a" = true ∧
    find? "a" cEx.transitions = some [("b", 3)] ∧
    transit cEx "a" (fun _ => 0) = ("", none) := by
  refine ⟨by decide, by decide, ?_⟩
  have hf : find? "a" cEx.transitions = some [("b", 3)] := by decide
  have hc : containsKey "a" cEx.transitions = true := by decide
  simp only [transit, hc, Bool.true_eq_false, if_true, if_false,
    eq_self_iff_true, getTransitionProbabilities, hf, List.map_cons,
    List.map_nil]
  simp [transitFold, mul_zero]

/-! ## RemoveState postconditions -/

theorem removeTransition_find?_ne (c : Chain) (f t : String) (hj : j ≠ f) :
    find? j (removeTransition c f t).1.transitions = find? j c.transitions := by
  cases hf : find? f c.transitions with
  | none => simp only [removeTransition, hf]
  | some mf =>
    simp only [removeTransition, hf]
    cases ht : containsKey t c.transitions with
    | false => simp only [ht, if_true, if_false, eq_self_iff_true]
    | true =>
      simp only [ht, Bool.true_eq_false, if_true, if_false, eq_self_iff_true]
      cases hedge : find? t mf with
      | none => rfl
      | some w => exact find?_setKey_ne hj (eraseKey t mf) c.transitions

/-- After `RemoveTransition(k, s)` the inner map of `k` holds no edge to
`s` (given the chain is well-formed and `s` exists). -/
theorem removeTransition_clears_edge (h : ChainWF a)
    (hs : containsKey s a.transitions = true)
    (hm : find? k (removeTransition a k s).1.transitions = some m) :
    find? s m = none := by
  cases hf : find? k a.transitions with
  | none =>
    simp only [removeTransition, hf] at hm
    exact Option.noConfusion hm
  | some mk =>
    simp only [removeTransition, hf, hs, Bool.true_eq_false, if_true, if_false,
      eq_self_iff_true] at hm
    cases hedge : find? s mk with
    | none =>
      simp only [hedge] at hm
      rw [hf] at hm
      injection hm with hm2
      subst hm2
      exact hedge
    | some w =>
      simp only [hedge] at hm
      rw [find?_setKey_self] at hm
      injection hm with hm2
      subst hm2
      exact find?_eraseKey_self (h.2.2.1 (k, mk) (mem_of_find?_eq_some hf)) s

/-- Walking the `RemoveState` loop over a key list: keys outside the list
keep their inner maps, and every key inside the list ends up with no edge
to `s`. -/
theorem fold_removeTransition_clears (s : String) :
    ∀ (l : List String) (a : Chain), ChainWF a →
      containsKey s a.transitions = true →
      (∀ j, j ∉ l →
        find? j ((l.foldl (fun x q => (removeTransition x q s).1) a)).transitions =
          find? j a.transitions) ∧
      (∀ j ∈ l, ∀ m,
        find? j ((l.foldl (fun x q => (removeTransition x q s).1) a)).transitions =
          some m →
        find? s m = none) := by
  intro l
  induction l with
  | nil =>
    exact fun a _ _ => ⟨fun j _ => rfl, fun j hj => absurd hj (List.not_mem_nil j)⟩
  | cons k rest ih =>
    intro a ha hs
    have ha2 : ChainWF (removeTransition a k s).1 := chainWF_removeTransition ha k s
    have hkeys := removeTransition_keys ha k s
    have hs2 : containsKey s (removeTransition a k s).1.transitions = true := by
      rw [containsKey_iff_mem, hkeys.1, ← containsKey_iff_mem]
      exact hs
    obtain ⟨ih1, ih2⟩ := ih (removeTransition a k s).1 ha2 hs2
    constructor
    · intro j hj
      have hj1 : j ≠ k := fun e => hj (e ▸ List.mem_cons_self k rest)
      have hj2 : j ∉ rest := fun e => hj (List.mem_cons_of_mem k e)
      rw [List.foldl_cons, ih1 j hj2, removeTransition_find?_ne a k s hj1]
    · intro j hj m hm
      rw [List.foldl_cons] at hm
      by_cases hjr : j ∈ rest
      · exact ih2 j hjr m hm
      · have hjk : j = k := by
          rcases List.mem_cons.mp hj with h1 | h1
          · exact h1
          · exact absurd h1 hjr
        subst hjk
        rw [ih1 j hjr] at hm
        exact removeTransition_clears_edge ha hs hm

/-- C8: on a well-formed chain, `RemoveState(s)` fails with the
state-not-found error (chain unchanged) when `s` does not exist; when it
does, the call succeeds, `HasState(s)` is false afterwards, and no
remaining state's `GetTransitionWeights` mapping contains `s` as a key. -/
theorem removeState_spec (c : Chain) (s : String) (h : ChainWF c) :
    (containsKey s c.transitions = false →
      removeState c s = (c, some (Err.stateNotFound s))) ∧
    (containsKey s c.transitions = true →
      (removeState c s).2 = none ∧
      hasState (removeState c s).1 s = false ∧
      (∀ r m, getTransitionWeights (removeState c s).1 r = .ok m →
        find? s m = none)) := by
  constructor
  · intro hc
    simp only [removeState, hc, if_true, eq_self_iff_true]
  · intro hc
    have hwf1 : ChainWF (removeLoop c s) :=
      (chainWF_fold_removeTransition s (c.transitions.map Prod.fst) c h).1
    have hkeys1 : (removeLoop c s).transitions.map Prod.fst =
        c.transitions.map Prod.fst :=
      (chainWF_fold_removeTransition s (c.transitions.map Prod.fst) c h).2.1
    obtain ⟨hout, hin⟩ :=
      fold_removeTransition_clears s (c.transitions.map Prod.fst) c h hc
    simp only [removeState, hc, Bool.true_eq_false, if_true, if_false,
      eq_self_iff_true]
    refine ⟨by trivial, ?_, ?_⟩
    · show containsKey s (eraseKey s (removeLoop c s).transitions) = false
      rw [containsKey_eq_false_iff]
      exact find?_eraseKey_self hwf1.1 s
    · intro q m hm
      have hq : find? q (eraseKey s (removeLoop c s).transitions) = some m := by
        revert hm
        show getTransitionWeights
            ⟨eraseKey s (removeLoop c s).transitions,
              eraseKey s (removeLoop c s).totals⟩ q = .ok m → _
        cases hr : find? q (eraseKey s (removeLoop c s).transitions) with
        | none =>
          simp only [getTransitionWeights, hr]
          intro hm
          cases hm
        | some m2 =>
          simp only [getTransitionWeights, hr]
          intro hm
          injection hm with hm2
          rw [hm2]
      by_cases hqs : q = s
      · subst hqs
        rw [find?_eraseKey_self hwf1.1 q] at hq
        cases hq
      · rw [find?_eraseKey_ne hqs] at hq
        have hql : q ∈ c.transitions.map Prod.fst := by
          rw [← hkeys1]
          exact List.mem_map.mpr ⟨(q, m), mem_of_find?_eq_some hq, rfl⟩
        exact hin q hql m hq

theorem removeState_spec_witness :
    ChainWF cEx3 ∧
    (removeState cEx3 "b").2 = none ∧
    hasState (removeState cEx3 "b").1 "b" = false ∧
    find? "b" ([] : WeightMap) = none :=
  ⟨by decide,
   ((removeState_spec cEx3 "b" (by decide)).2 (by decide)).1,
   ((removeState_spec cEx3 "b" (by decide)).2 (by decide)).2.1,
   ((removeState_spec cEx3 "b" (by decide)).2 (by decide)).2.2 "a" [] (by rfl)⟩

/-! ## Transition probability -/

/-- C6 counterexample: in the reachable chain `cBad` (edge `a → b` of
weight 0, `totals["a"] = 0`) `GetTransitionProbability("a", "b")` does
not fail with any zero-total error — the code has no such error; it
performs the division and returns the quotient with a nil error (Go
computes `0.0 / 0.0`, a NaN; the exact rational model of that division
returns 0).  The returned value is also not in `(0, 1]`. -/
theorem getTransitionProbability_zero_total_counterexample :
    Reachable cBad ∧
    find? "a" cBad.totals = some 0 ∧
    hasTransition cBad "a" "b" = true ∧
    getTransitionProbability cBad "a" "b" = .ok 0 := by
  refine ⟨reachable_cBad, by decide, by decide, ?_⟩
  have hf : find? "a" cBad.transitions = some [("b", 0)] := by decide
  have ht : containsKey "b" cBad.transitions = true := by decide
  have hedge : find? "b" [("b", (0 : Int))] = some 0 := by decide
  have hz : getZ "a" cBad.totals = 0 := by decide
  simp only [getTransitionProbability, hf, ht, hedge, hz, Bool.true_eq_false,
    if_true, if_false, eq_self_iff_true, Int.cast_zero, div_zero]

/-- C6 amended: `GetTransitionProbability` fails with the
state-not-found / transition-not-found errors exactly as the weight
lookup does; whenever the edge exists it returns the quotient
`weight / totals[from]` with no error — including when `totals[from]`
is 0, where Go's float division still yields a value (Inf/NaN), there
being no zero-total error in the code; and when
`0 < weight ≤ totals[from]` the returned value lies in `(0, 1]`. -/
theorem getTransitionProbability_spec (c : Chain) (f t : String) :
    (find? f c.transitions = none →
      getTransitionProbability c f t = .error (Err.stateNotFound f)) ∧
    (∀ mf, find? f c.transitions = some mf →
      containsKey t c.transitions = false →
      getTransitionProbability c f t = .error (Err.stateNotFound t)) ∧
    (∀ mf, find? f c.transitions = some mf →
      containsKey t c.transitions = true → find? t mf = none →
      getTransitionProbability c f t = .error (Err.transNotFound f t)) ∧
    (∀ mf w, find? f c.transitions = some mf →
      containsKey t c.transitions = true → find? t mf = some w →
      getTransitionProbability c f t = .ok ((w : ℚ) / (getZ f c.totals : ℚ))) ∧
    (∀ mf w T, find? f c.transitions = some mf →
      containsKey t c.transitions = true → find? t mf = some w →
      find? f c.totals = some T → 0 < w → w ≤ T →
      getTransitionProbability c f t = .ok ((w : ℚ) / (T : ℚ)) ∧
      0 < (w : ℚ) / (T : ℚ) ∧ (w : ℚ) / (T : ℚ) ≤ 1) := by
  refine ⟨?_, ?_, ?_, ?_, ?_⟩
  · intro hf
    simp only [getTransitionProbability, hf]
  · intro mf hf ht
    simp only [getTransitionProbability, hf, ht, if_true, if_false,
      eq_self_iff_true]
  · intro mf hf ht hedge
    simp only [getTransitionProbability, hf, ht, hedge, Bool.true_eq_false,
      if_true, if_false, eq_self_iff_true]
  · intro mf w hf ht hedge
    simp only [getTransitionProbability, hf, ht, hedge, Bool.true_eq_false,
      if_true, if_false, eq_self_iff_true]
  · intro mf w T hf ht hedge hT hw hwT
    have hT0 : (0 : ℚ) < (T : ℚ) := by
      exact_mod_cast lt_of_lt_of_le hw hwT
    refine ⟨?_, div_pos (by exact_mod_cast hw) hT0, (div_le_one hT0).mpr ?_⟩
    · have hz : getZ f c.totals = T := by
        rw [getZ, hT]
        rfl
      simp only [getTransitionProbability, hf, ht, hedge, hz,
        Bool.true_eq_false, if_true, if_false, eq_self_iff_true]
    · exact_mod_cast hwT

theorem getTransitionProbability_spec_witness :
    getTransitionProbability cEx "a" "b" =
      .ok (((3 : Int) : ℚ) / ((3 : Int) : ℚ)) ∧
    0 < ((3 : Int) : ℚ) / ((3 : Int) : ℚ) ∧
    ((3 : Int) : ℚ) / ((3 : Int) : ℚ) ≤ 1 :=
  (getTransitionProbability_spec cEx "a" "b").2.2.2.2 [("b", 3)] 3 3
    (by decide) (by decide) (by decide) (by decide) (by decide) (by decide)

/-! ## Serialization round trip -/

theorem decodeWeightFields_encode (m : WeightMap) :
    ∀ acc, decodeWeightFields (m.map fun p => (p.1, Json.num p.2)) acc =
      .ok (m.foldl (fun a p => setKey p.1 p.2 a) acc) := by
  induction m with
  | nil => intro acc; rfl
  | cons p rest ih =>
    intro acc
    obtain ⟨a, b⟩ := p
    simp only [List.map_cons, decodeWeightFields, List.foldl_cons]
    exact ih (setKey a b acc)

theorem foldl_setKey_append (l : List (String × α)) :
    ∀ acc, (∀ k ∈ l.map Prod.fst, containsKey k acc = false) →
      (l.map Prod.fst).Nodup →
      l.foldl (fun a p => setKey p.1 p.2 a) acc = acc ++ l := by
  induction l with
  | nil =>
    intro acc _ _
    simp
  | cons p rest ih =>
    intro acc hdis hnd
    obtain ⟨a, b⟩ := p
    rw [List.map_cons, List.nodup_cons] at hnd
    have hca : containsKey a acc = false := hdis a (by simp)
    simp only [List.foldl_cons]
    rw [setKey_of_not_contains hca b]
    rw [ih (acc ++ [(a, b)]) ?_ hnd.2]
    · simp
    · intro k hk
      rw [containsKey_eq_false_iff, find?_eq_none_iff, List.map_append]
      intro hmem
      rcases List.mem_append.mp hmem with h1 | h1
      · have h2 := hdis k (by simp [hk])
        rw [containsKey_eq_false_iff, find?_eq_none_iff] at h2
        exact h2 h1
      · simp only [List.map_cons, List.map_nil, List.mem_singleton] at h1
        exact hnd.1 (h1 ▸ hk)

theorem decodeWeights_encodeWeights (m : WeightMap)
    (h : (m.map Prod.fst).Nodup) :
    decodeWeights (encodeWeights m) = .ok m := by
  rw [encodeWeights,
    show decodeWeights (Json.obj (m.map fun p => (p.1, Json.num p.2))) =
      decodeWeightFields (m.map fun p => (p.1, Json.num p.2)) [] from rfl,
    decodeWeightFields_encode m [],
    foldl_setKey_append m [] (fun k _ => rfl) h]
  simp

theorem decodeTransFields_encode (t : List (String × WeightMap))
    (hin : ∀ p ∈ t, (p.2.map Prod.fst).Nodup) :
    ∀ acc, decodeTransFields (t.map fun p => (p.1, encodeWeights p.2)) acc =
      .ok (t.foldl (fun a p => setKey p.1 p.2 a) acc) := by
  induction t with
  | nil => intro acc; rfl
  | cons p rest ih =>
    intro acc
    obtain ⟨a, b⟩ := p
    simp only [List.map_cons, decodeTransFields,
      decodeWeights_encodeWeights b (hin (a, b) (List.mem_cons_self _ _)),
      List.foldl_cons]
    exact ih (fun q hq => hin q (List.mem_cons_of_mem _ hq)) (setKey a b acc)

theorem decodeTrans_encodeTrans (t : List (String × WeightMap))
    (h : (t.map Prod.fst).Nodup)
    (hin : ∀ p ∈ t, (p.2.map Prod.fst).Nodup) :
    decodeTrans (encodeTrans t) = .ok t := by
  rw [encodeTrans,
    show decodeTrans (Json.obj (t.map fun p => (p.1, encodeWeights p.2))) =
      decodeTransFields (t.map fun p => (p.1, encodeWeights p.2)) [] from rfl,
    decodeTransFields_encode t hin [],
    foldl_setKey_append t [] (fun k _ => rfl) h]
  simp

/-- C3: serializing any chain (duplicate-free key sets, as every Go map
has) and deserializing the result succeeds and returns a chain with the
very same `transitions` and `totals` content. -/
theorem toJson_fromJson_roundtrip (c : Chain)
    (h1 : (c.transitions.map Prod.fst).Nodup)
    (h2 : (c.totals.map Prod.fst).Nodup)
    (h3 : ∀ p ∈ c.transitions, (p.2.map Prod.fst).Nodup) :
    fromJson (toJson c) = .ok c := by
  rw [toJson,
    show fromJson (Json.obj [("Transitions", encodeTrans c.transitions),
        ("Totals", encodeWeights c.totals)]) =
      decodeTopFields [("Transitions", encodeTrans c.transitions),
        ("Totals", encodeWeights c.totals)] ⟨[], []⟩ from rfl]
  have e1 : ("Transitions" = "Transitions") = True := by simp
  have e2 : ("Totals" = "Transitions") = False := by simp
  have e3 : ("Totals" = "Totals") = True := by simp
  simp only [decodeTopFields, e1, e2, e3, if_true, if_false,
    decodeTrans_encodeTrans c.transitions h1 h3,
    decodeWeights_encodeWeights c.totals h2]

theorem toJson_fromJson_roundtrip_witness :
    fromJson (toJson cEx) = .ok cEx :=
  toJson_fromJson_roundtrip cEx (by decide) (by decide) (by decide)

/-- The inconsistent two-field payload used to show that `FromJSON` does
not re-validate: `Totals["a"] = 100` although the weights of `a` sum to
1, and the stored weight of `a → c` is the non-positive value -2. -/
def payloadBad : Json :=
  .obj [("Transitions", .obj [("a", .obj [("b", .num 3), ("c", .num (-2))])]),
        ("Totals", .obj [("a", .num 100)])]

/-- The chain `FromJSON` builds from `payloadBad`, verbatim. -/
def chainFromBad : Chain :=
  ⟨[("a", [("b", 3), ("c", -2)])], [("a", 100)]⟩

/-- C9: `FromJSON` fails with a parse error on malformed input (a
non-object document, or a known field of the wrong shape), and performs
no invariant re-validation on well-formed input: it accepts `payloadBad`
and returns exactly its inconsistent content — `totals["a"] = 100`
against a weight sum of 1, with a stored weight of -2. -/
theorem fromJson_spec :
    fromJson (Json.num 7) =
      .error "json: cannot unmarshal value into Go value of type markov.chainExport" ∧
    fromJson (Json.obj [("Transitions", Json.num 7), ("Totals", Json.null)]) =
      .error "json: cannot unmarshal value into Go value of type map[string]map[string]int64" ∧
    fromJson payloadBad = .ok chainFromBad ∧
    ¬ ChainWF chainFromBad ∧
    ¬ AllWeightsPos chainFromBad ∧
    find? "a" chainFromBad.totals = some 100 ∧
    find? "a" chainFromBad.transitions = some [("b", 3), ("c", -2)] ∧
    sumWeights [("b", 3), ("c", -2)] = 1 :=
  ⟨rfl, rfl, rfl, by decide, by decide, by decide, by decide, by decide⟩
